import Mathlib

/-!
Shallow embedding of the `praia` issue store (`src/db.rs`).

The store keeps issues as directories named by decimal ids under a root
directory, each comment of an issue as a file named by its decimal id inside
the issue's directory (comment `0` is the issue's content), and an optional
cache file `index.txt` beside the issue directories.

Modelling choices, each noted at the definition it concerns:
* `u32` counters are `Nat` with arithmetic reduced `% 2^32` where the Rust
  code computes `x + 1` on a `u32` (release-mode wrapping semantics).
* The filesystem is a finite in-memory structure: a set of issue-directory
  names, a list of comment files with contents, and a set of paths on which
  any `open` fails with a non-`NotFound` I/O error (permission failures and
  the like).  Directory- and file-names are modelled as the numbers they
  denote; non-numeric tampered entries (a fatal `BadDb` on scan) are outside
  the model, as no claim concerns them.
* File timestamps (`created`/`modified`, taken from filesystem metadata at
  read time in the code) are outside the model; `Issue` and `Comment`
  records keep their ids and content.
* The `RwLock` serialises operations; the model is the sequential semantics
  of each operation on the locked state.
-/

namespace Praia

/-- Modulus of Rust's `u32` arithmetic. -/
def u32Mod : Nat := 2 ^ 32

/-- `ErrorKind` dispatch used by the code: it only ever distinguishes
`NotFound` from every other I/O error. -/
inductive IoKind where
  | notFound
  | other
deriving DecidableEq

/-- `FsError` from `src/db.rs`. -/
inductive FsError where
  | BadIndex
  | BadDb
  | NoIssue (id : Nat)
  | Io (k : IoKind)
deriving DecidableEq

/-- `HashMap<u32, u32>` lookup, on an association list whose order stands for
the map's (unspecified) iteration order. -/
def lookupA (k : Nat) : List (Nat × Nat) → Option Nat
  | [] => none
  | kv :: rest => if kv.1 = k then some kv.2 else lookupA k rest

/-- `HashMap<u32, u32>` insert: overwrite the value if the key is present,
otherwise add an entry (placed last in iteration order). -/
def insertA (k v : Nat) : List (Nat × Nat) → List (Nat × Nat)
  | [] => [(k, v)]
  | kv :: rest => if kv.1 = k then (k, v) :: rest else kv :: insertA k v rest

/-- The root directory's state: issue directories, comment files
`(issue_id, comment_id, content)`, paths whose `open` fails with a
non-`NotFound` error, and the optional `index.txt` content. -/
structure Fs where
  dirs : List Nat
  files : List (Nat × Nat × String)
  broken : List (Nat × Nat)
  index : Option (List Char)
deriving DecidableEq

/-- `File::open` of `<root>/<i>/<c>` for reading: a broken path fails with a
non-`NotFound` error, a present file yields its content, anything else is
`NotFound`. -/
def Fs.openFile (fs : Fs) (i c : Nat) : Except IoKind String :=
  if (i, c) ∈ fs.broken then Except.error IoKind.other
  else match fs.files.find? (fun e => e.1 == i && e.2.1 == c) with
    | some e => Except.ok e.2.2
    | none => Except.error IoKind.notFound

/-- `create_dir` of `<root>/<i>`: fails (`AlreadyExists`, a non-`NotFound`
error) if the directory is present. -/
def Fs.createDir (fs : Fs) (i : Nat) : Except IoKind Fs :=
  if i ∈ fs.dirs then Except.error IoKind.other
  else Except.ok { fs with dirs := i :: fs.dirs }

/-- `OpenOptions::new().create_new(true).write(true).open` of `<root>/<i>/<c>`
followed by `write_all`: fails on a broken path, fails with `AlreadyExists`
(a non-`NotFound` error) if the file is present, fails with `NotFound` if the
parent directory is absent, and otherwise creates the file. -/
def Fs.createFile (fs : Fs) (i c : Nat) (content : String) : Except IoKind Fs :=
  if (i, c) ∈ fs.broken then Except.error IoKind.other
  else if (fs.files.find? (fun e => e.1 == i && e.2.1 == c)).isSome then
    Except.error IoKind.other
  else if i ∈ fs.dirs then Except.ok { fs with files := (i, c, content) :: fs.files }
  else Except.error IoKind.notFound

/-- `FsDbInner` without the constant `path` field. -/
structure FsDbInner where
  issue_count : Nat
  comment_count : List (Nat × Nat)
deriving DecidableEq

/-- `Issue` (timestamps, derived from file metadata, are outside the model). -/
structure Issue where
  issue_id : Nat
  content : String
deriving DecidableEq

/-- `Comment` (timestamps omitted as for `Issue`). -/
structure Comment where
  issue_id : Nat
  comment_id : Nat
  content : String
deriving DecidableEq

/-- `FsDb::new_issue`: read the next id, create its directory, then seed the
comment counter to 1 and bump the issue counter, then create and write
comment `0`.  The counter mutations happen between the two filesystem
writes, exactly as in the source. -/
def new_issue (db : FsDbInner) (fs : Fs) (first_comment : String) :
    Except FsError Nat × FsDbInner × Fs :=
  let issue_id := db.issue_count
  match fs.createDir issue_id with
  | Except.error e => (Except.error (FsError.Io e), db, fs)
  | Except.ok fs1 =>
    let db1 : FsDbInner :=
      { issue_count := (db.issue_count + 1) % u32Mod,
        comment_count := insertA issue_id 1 db.comment_count }
    match fs1.createFile issue_id 0 first_comment with
    | Except.error e => (Except.error (FsError.Io e), db1, fs1)
    | Except.ok fs2 => (Except.ok issue_id, db1, fs2)

/-- `FsDb::new_comment`: look the issue up in the cached map (never on disk),
create and write the file, and only then bump the per-issue counter. -/
def new_comment (db : FsDbInner) (fs : Fs) (issue_id : Nat) (content : String) :
    Except FsError Nat × FsDbInner × Fs :=
  match lookupA issue_id db.comment_count with
  | none => (Except.error (FsError.NoIssue issue_id), db, fs)
  | some comment_id =>
    match fs.createFile issue_id comment_id content with
    | Except.error e => (Except.error (FsError.Io e), db, fs)
    | Except.ok fs2 =>
      (Except.ok comment_id,
       { db with comment_count :=
           insertA issue_id ((comment_id + 1) % u32Mod) db.comment_count },
       fs2)

/-- The prefix of `s` up to and including its first newline (`BufRead`'s
`read_line` into an empty buffer). -/
def takeLine : List Char → List Char
  | [] => []
  | c :: rest => if c = '\n' then [c] else c :: takeLine rest

/-- `read_line` applied to a whole file's content, as a `String`. -/
def firstLine (s : String) : String := String.mk (takeLine s.data)

/-- The body of the `get_issues` closure at one id: open `<i>/0`, skip on
`NotFound`, surface any other error, and build the `Issue` from the FIRST
line of the file (the code uses `read_line`, not `read_to_string`, here).
Metadata retrieval (a further error source in the code) is outside the
model. -/
def issueAt (fs : Fs) (issue_id : Nat) : Option (Except FsError Issue) :=
  match fs.openFile issue_id 0 with
  | Except.error IoKind.notFound => none
  | Except.error k => some (Except.error (FsError.Io k))
  | Except.ok content => some (Except.ok ⟨issue_id, firstLine content⟩)

/-- `FsDb::get_issues`: filter-map the per-id probe over `0..issue_count` as
cached when iteration begins.  The lazy iterator is modelled by the finite
list of the elements it yields. -/
def get_issues (db : FsDbInner) (fs : Fs) : List (Except FsError Issue) :=
  (List.range db.issue_count).filterMap (issueAt fs)

/-- `FsDb::get_issue`: open `<i>/0` directly (the cached index is never
consulted) and return the ENTIRE file content (`read_to_string`). -/
def get_issue (fs : Fs) (issue_id : Nat) : Except FsError Issue :=
  match fs.openFile issue_id 0 with
  | Except.error e => Except.error (FsError.Io e)
  | Except.ok content => Except.ok ⟨issue_id, content⟩

/-- The body of the `get_issue_comments` closure at one comment id: open the
file, skip on `NotFound`, surface any other error, read the whole content. -/
def commentAt (fs : Fs) (issue_id comment_id : Nat) : Option (Except FsError Comment) :=
  match fs.openFile issue_id comment_id with
  | Except.error IoKind.notFound => none
  | Except.error k => some (Except.error (FsError.Io k))
  | Except.ok content => some (Except.ok ⟨issue_id, comment_id, content⟩)

/-- `FsDb::get_issue_comments`: an issue id absent from the cached map yields
the one-element iterator `once(Err(NoIssue(id)))`; otherwise the per-id probe
is filter-mapped over `0..count` with the cached count. -/
def get_issue_comments (db : FsDbInner) (fs : Fs) (issue_id : Nat) :
    List (Except FsError Comment) :=
  match lookupA issue_id db.comment_count with
  | none => [Except.error (FsError.NoIssue issue_id)]
  | some count => (List.range count).filterMap (commentAt fs issue_id)

/-- Decimal digit characters, for `u32`'s `Display`. -/
def digitChar (d : Nat) : Char :=
  match d with
  | 0 => '0' | 1 => '1' | 2 => '2' | 3 => '3' | 4 => '4'
  | 5 => '5' | 6 => '6' | 7 => '7' | 8 => '8' | _ => '9'

/-- Fuelled helper for `natDigits`; the fuel bounds the recursion depth and
is irrelevant as soon as it exceeds the argument. -/
def natDigitsAux (fuel n : Nat) : List Char :=
  match fuel with
  | 0 => []
  | fuel + 1 =>
    if n < 10 then [digitChar n]
    else natDigitsAux fuel (n / 10) ++ [digitChar (n % 10)]

/-- Decimal representation of a `u32` value (`Display for u32`): most
significant digit first, no sign, no leading zeros. -/
def natDigits (n : Nat) : List Char := natDigitsAux (n + 1) n

/-- Value of a digit string read left to right. -/
def digitsVal (l : List Char) : Nat :=
  l.foldl (fun acc c => acc * 10 + (c.toNat - 48)) 0

/-- `str::parse::<u32>`: one optional leading `+`, then one or more ASCII
digits, value at most `u32::MAX`; everything else is a parse error. -/
def parseU32 (s : List Char) : Option Nat :=
  let ds := if s.head? = some '+' then s.tail else s
  if ds = [] then none
  else if ds.all Char.isDigit then
    if digitsVal ds < u32Mod then some (digitsVal ds) else none
  else none

/-- `str::trim_end`: drop trailing whitespace.  (Rust trims Unicode
whitespace; the model trims the ASCII whitespace `Char.isWhitespace`
recognises, which agrees on every character the index format produces.) -/
def trimEndL (l : List Char) : List Char :=
  (l.reverse.dropWhile Char.isWhitespace).reverse

/-- `str::split(" ")`: pieces between single spaces; consecutive spaces
yield empty pieces, and the result is never the empty list. -/
def splitSp : List Char → List (List Char)
  | [] => [[]]
  | c :: rest =>
    if c = ' ' then [] :: splitSp rest
    else match splitSp rest with
      | [] => [[c]]
      | p :: ps => (c :: p) :: ps

/-- Decomposition of a file's content into the successive buffers returned
by `read_line`: each piece ends with `'\n'` except possibly the last, and
an empty file has no pieces. -/
def splitLines : List Char → List (List Char)
  | [] => []
  | c :: rest =>
    if c = '\n' then ['\n'] :: splitLines rest
    else match splitLines rest with
      | [] => [[c]]
      | l :: ls => (c :: l) :: ls

/-- One `<issue_id> <comment_count>` line of `read_index`'s loop: split the
buffer (newline included) on spaces; the first field is parsed as is, the
second is trimmed then parsed, and a third field is a `BadIndex` error, as
is a missing or unparsable field. -/
def parseEntryLine (line : List Char) : Except FsError (Nat × Nat) :=
  match splitSp line with
  | [] => Except.error FsError.BadIndex
  | [_] => Except.error FsError.BadIndex
  | k :: v :: rest =>
    match parseU32 k with
    | none => Except.error FsError.BadIndex
    | some kn =>
      match parseU32 (trimEndL v) with
      | none => Except.error FsError.BadIndex
      | some vn =>
        if rest = [] then Except.ok (kn, vn) else Except.error FsError.BadIndex

/-- The `while read_line` loop of `read_index`, inserting each parsed pair
into the map. -/
def readEntries : List (List Char) → List (Nat × Nat) → Except FsError (List (Nat × Nat))
  | [], acc => Except.ok acc
  | line :: rest, acc =>
    match parseEntryLine line with
    | Except.error e => Except.error e
    | Except.ok kv => readEntries rest (insertA kv.1 kv.2 acc)

/-- `FsDbInner::read_index` on the content of `index.txt`: the first line
(trimmed) is `issue_count` — an empty file is `BadIndex` — and every further
line is an entry of `comment_count`. -/
def read_index (file : List Char) : Except FsError FsDbInner :=
  match splitLines file with
  | [] => Except.error FsError.BadIndex
  | l0 :: rest =>
    match parseU32 (trimEndL l0) with
    | none => Except.error FsError.BadIndex
    | some ic =>
      match readEntries rest [] with
      | Except.error e => Except.error e
      | Except.ok m => Except.ok ⟨ic, m⟩

/-- One `writeln!(index, "{k} {v}")` line. -/
def entryLine (kv : Nat × Nat) : List Char :=
  natDigits kv.1 ++ ' ' :: natDigits kv.2 ++ ['\n']

/-- `FsDbInner::save_index`'s output: the `issue_count` line followed by one
line per `comment_count` entry in iteration order. -/
def save_index (db : FsDbInner) : List Char :=
  natDigits db.issue_count ++ '\n' :: (db.comment_count.map entryLine).flatten

/-- Truncate-and-rewrite of `index.txt` with `save_index`'s output. -/
def Fs.saveIndex (fs : Fs) (db : FsDbInner) : Fs :=
  { fs with index := some (save_index db) }

/-- The inner loop of `create_index` over one issue directory's entries:
`max_comment.max(comment_id + 1)` over the files of that issue, from 0. -/
def maxComment (fs : Fs) (issue_id : Nat) : Nat :=
  fs.files.foldl (fun m e => if e.1 = issue_id then max m ((e.2.1 + 1) % u32Mod) else m) 0

/-- `FsDbInner::create_index`: scan the root's issue directories, taking
`issue_count.max(issue_id + 1)` and inserting each issue's scanned comment
count, then persist the result with `save_index`. -/
def create_index (fs : Fs) : FsDbInner × Fs :=
  let st := fs.dirs.foldl
    (fun (st : Nat × List (Nat × Nat)) d =>
      (max st.1 ((d + 1) % u32Mod), insertA d (maxComment fs d) st.2))
    (0, [])
  let db : FsDbInner := ⟨st.1, st.2⟩
  (db, fs.saveIndex db)

/-- `FsDb::new`: load `index.txt` when it exists (propagating any error, with
no fallback to a rescan), else rebuild and persist the index by scanning. -/
def FsDb.new (fs : Fs) : Except FsError (FsDbInner × Fs) :=
  match fs.index with
  | some content =>
    match read_index content with
    | Except.error e => Except.error e
    | Except.ok db => Except.ok (db, fs)
  | none => Except.ok (create_index fs)

/-- A write operation issued against the open store. -/
inductive Op where
  | issue (content : String)
  | comment (issue_id : Nat) (content : String)
deriving DecidableEq

/-- The locked state: the in-memory index and the root directory. -/
structure St where
  db : FsDbInner
  fs : Fs
deriving DecidableEq

/-- Execute one operation, returning its result and the next state. -/
def step (st : St) (op : Op) : Except FsError Nat × St :=
  match op with
  | Op.issue content =>
    let r := new_issue st.db st.fs content
    (r.1, ⟨r.2.1, r.2.2⟩)
  | Op.comment i content =>
    let r := new_comment st.db st.fs i content
    (r.1, ⟨r.2.1, r.2.2⟩)

/-- Execute a sequence of operations, collecting the trace of results. -/
def run : St → List Op → St × List (Op × Except FsError Nat)
  | st, [] => (st, [])
  | st, op :: ops =>
    let s := step st op
    let t := run s.2 ops
    (t.1, (op, s.1) :: t.2)

/-- The ids returned by the successful `new_issue` calls of a trace, in call
order. -/
def issueOks : List (Op × Except FsError Nat) → List Nat
  | [] => []
  | (Op.issue _, Except.ok id) :: rest => id :: issueOks rest
  | _ :: rest => issueOks rest

/-- The ids returned by the successful `new_comment` calls of a trace that
target issue `i`, in call order. -/
def commentOks (i : Nat) : List (Op × Except FsError Nat) → List Nat
  | [] => []
  | (Op.comment j _, Except.ok id) :: rest =>
    if j = i then id :: commentOks i rest else commentOks i rest
  | _ :: rest => commentOks i rest

/-- An empty root directory, `index.txt` absent. -/
def emptyRoot : Fs := ⟨[], [], [], none⟩

/-- The line-oriented format `read_index` accepts for an entry line: exactly
two space-separated fields, the first a `u32`, the second a `u32` after
trimming its line terminator. -/
def goodEntryLine (line : List Char) : Bool :=
  match splitSp line with
  | [k, v] => (parseU32 k).isSome && (parseU32 (trimEndL v)).isSome
  | _ => false

/-- The line-oriented format `read_index` accepts for a whole `index.txt`:
a first line holding a `u32` and then only well-formed entry lines. -/
def goodIndex (file : List Char) : Bool :=
  match splitLines file with
  | [] => false
  | l0 :: rest => (parseU32 (trimEndL l0)).isSome && rest.all goodEntryLine

/-- Reachability invariant of a store opened on an empty root, after `K`
issues were ever created and `S i` comments were successfully added to
issue `i` (counting the seeded comment `0` separately): counters wrap
`% 2^32`, the directories are exactly `0..K`, the files of issue `i` are
exactly its comments `0..S i`, and nothing is broken. -/
structure Inv (K : Nat) (S : Nat → Nat) (st : St) : Prop where
  hK : K ≤ u32Mod
  hic : st.db.issue_count = K % u32Mod
  hdirs : ∀ d, d ∈ st.fs.dirs ↔ d < K
  hbroken : st.fs.broken = []
  hfK : ∀ e ∈ st.fs.files, e.1 < K
  hlookn : ∀ i, K ≤ i → lookupA i st.db.comment_count = none
  hSb : ∀ i, i < K → S i < u32Mod
  hlook : ∀ i, i < K → lookupA i st.db.comment_count = some ((1 + S i) % u32Mod)
  hfiles : ∀ i, i < K → ∀ c, (∃ s, (i, c, s) ∈ st.fs.files) ↔ c ≤ S i
  hS0 : ∀ i, K ≤ i → S i = 0

theorem lookupA_insert_self (k v : Nat) (l : List (Nat × Nat)) :
    lookupA k (insertA k v l) = some v := by
  induction l with
  | nil => simp [insertA, lookupA]
  | cons kv rest ih =>
    by_cases h : kv.1 = k
    · simp [insertA, h, lookupA]
    · simp [insertA, h, lookupA, ih]

theorem lookupA_insert_ne (k k' v : Nat) (l : List (Nat × Nat)) (h : k' ≠ k) :
    lookupA k' (insertA k v l) = lookupA k' l := by
  induction l with
  | nil => simp [insertA, lookupA, Ne.symm h]
  | cons kv rest ih =>
    by_cases hk : kv.1 = k
    · subst hk
      simp [insertA, lookupA, Ne.symm h]
    · simp only [insertA, if_neg hk, lookupA]
      by_cases hk' : kv.1 = k'
      · simp [hk']
      · simp [hk', ih]

theorem find?_file_isSome (files : List (Nat × Nat × String)) (i c : Nat) :
    (files.find? (fun e => e.1 == i && e.2.1 == c)).isSome ↔
      ∃ s, (i, c, s) ∈ files := by
  rw [List.find?_isSome]
  constructor
  · rintro ⟨⟨a, b, s⟩, he, hp⟩
    simp only [beq_iff_eq, Bool.and_eq_true] at hp
    obtain ⟨rfl, rfl⟩ := hp
    exact ⟨s, he⟩
  · rintro ⟨s, hs⟩
    exact ⟨(i, c, s), hs, by simp⟩

theorem find?_file_eq_none (files : List (Nat × Nat × String)) (i c : Nat) :
    files.find? (fun e => e.1 == i && e.2.1 == c) = none ↔
      ∀ s, (i, c, s) ∉ files := by
  rw [List.find?_eq_none]
  constructor
  · intro h s hs
    have := h _ hs
    simp at this
  · rintro h ⟨a, b, s⟩ he
    simp only [beq_iff_eq, Bool.and_eq_true, not_and]
    rintro rfl rfl
    exact absurd he (h s)

/-- C8: `new_comment` returns the `NoIssue issue_id` error exactly when
`issue_id` is absent from the in-memory comment-count map at the time of
the call; the check consults only the cached index, so the equivalence holds
for every filesystem state, including one where the issue exists on disk. -/
theorem new_comment_no_issue_iff (db : FsDbInner) (fs : Fs) (i : Nat) (content : String) :
    (new_comment db fs i content).1 = Except.error (FsError.NoIssue i) ↔
      lookupA i db.comment_count = none := by
  cases h : lookupA i db.comment_count with
  | none => simp [new_comment, h]
  | some cid =>
    cases hc : fs.createFile i cid content with
    | error e => simp [new_comment, h, hc]
    | ok fs2 => simp [new_comment, h, hc]

/-- C5 (counterexample): the `NoIssue` failure IS delivered as an element of
the returned sequence — the operation's return type has no whole-operation
error channel. -/
theorem get_issue_comments_error_is_element :
    Except.error (FsError.NoIssue 5) ∈ get_issue_comments ⟨0, []⟩ emptyRoot 5 := by
  exact List.mem_singleton.mpr rfl

/-- C5 (amended): for an issue id absent from the cached comment-count map,
`get_issue_comments` checks the map eagerly at call time and returns the
sequence whose sole element is the `NoIssue` error — no comment file is
probed, whatever the filesystem holds. -/
theorem get_issue_comments_missing_issue (db : FsDbInner) (fs : Fs) (i : Nat)
    (h : lookupA i db.comment_count = none) :
    get_issue_comments db fs i = [Except.error (FsError.NoIssue i)] := by
  simp [get_issue_comments, h]

theorem get_issue_comments_missing_issue_witness :
    get_issue_comments ⟨0, []⟩ emptyRoot 5 = [Except.error (FsError.NoIssue 5)] :=
  get_issue_comments_missing_issue ⟨0, []⟩ emptyRoot 5 rfl

/-- C6 (counterexample): with comment-0 content `"a\nb"`, `get_issue`
returns the whole text but the element `get_issues` yields for the same
issue holds only the first line, so not every returned record carries the
entire text of the comment-0 file. -/
theorem get_issues_content_not_whole_file :
    get_issue ⟨[0], [(0, 0, "a\nb")], [], none⟩ 0 = Except.ok ⟨0, "a\nb"⟩ ∧
    get_issues ⟨1, [(0, 1)]⟩ ⟨[0], [(0, 0, "a\nb")], [], none⟩ =
      [Except.ok ⟨0, "a\n"⟩] ∧
    ("a\n" : String) ≠ "a\nb" := by
  refine ⟨rfl, rfl, by decide⟩

/-- C6 (amended): when comment-0 of issue `i` opens with content `s`,
`get_issue` returns the entire text `s`, while the element `get_issues`
yields for `i` carries only the first line of `s` (up to and including the
first newline); the two agree exactly when `s` has no content after its
first newline. -/
theorem issue_content_amended (db : FsDbInner) (fs : Fs) (i : Nat) (s : String)
    (h : fs.openFile i 0 = Except.ok s) (hi : i < db.issue_count) :
    get_issue fs i = Except.ok ⟨i, s⟩ ∧
    issueAt fs i = some (Except.ok ⟨i, firstLine s⟩) ∧
    Except.ok (⟨i, firstLine s⟩ : Issue) ∈ get_issues db fs := by
  have h2 : issueAt fs i = some (Except.ok ⟨i, firstLine s⟩) := by simp [issueAt, h]
  exact ⟨by simp [get_issue, h], h2,
    List.mem_filterMap.mpr ⟨i, List.mem_range.mpr hi, h2⟩⟩

theorem issue_content_amended_witness :
    get_issue ⟨[0], [(0, 0, "hello")], [], none⟩ 0 = Except.ok ⟨0, "hello"⟩ ∧
    issueAt ⟨[0], [(0, 0, "hello")], [], none⟩ 0 =
      some (Except.ok ⟨0, firstLine "hello"⟩) ∧
    Except.ok (⟨0, firstLine "hello"⟩ : Issue) ∈
      get_issues ⟨1, [(0, 1)]⟩ ⟨[0], [(0, 0, "hello")], [], none⟩ :=
  issue_content_amended ⟨1, [(0, 1)]⟩ ⟨[0], [(0, 0, "hello")], [], none⟩ 0 "hello"
    rfl (by decide)

/-- C10: `new_issue` mutates the in-memory index between the directory
creation and the comment-0 file creation: a directory-creation failure
returns an error with index and filesystem untouched, while a comment-0
creation failure returns an error with the allocated issue id already
consumed — the issue counter bumped and the comment counter seeded to 1. -/
theorem new_issue_mutation_order (db : FsDbInner) (fs : Fs) (content : String) :
    (∀ e, fs.createDir db.issue_count = Except.error e →
      new_issue db fs content = (Except.error (FsError.Io e), db, fs)) ∧
    (∀ fs1 e, fs.createDir db.issue_count = Except.ok fs1 →
      fs1.createFile db.issue_count 0 content = Except.error e →
      new_issue db fs content =
        (Except.error (FsError.Io e),
         ⟨(db.issue_count + 1) % u32Mod, insertA db.issue_count 1 db.comment_count⟩,
         fs1)) := by
  constructor
  · intro e he
    simp [new_issue, he]
  · intro fs1 e h1 h2
    simp [new_issue, h1, h2]

theorem new_issue_mutation_order_witness :
    new_issue ⟨0, []⟩ ⟨[0], [], [], none⟩ "y" =
      (Except.error (FsError.Io IoKind.other), ⟨0, []⟩, ⟨[0], [], [], none⟩) ∧
    new_issue ⟨0, []⟩ ⟨[], [(0, 0, "x")], [], none⟩ "y" =
      (Except.error (FsError.Io IoKind.other),
       ⟨(0 + 1) % u32Mod, insertA 0 1 []⟩, ⟨[0], [(0, 0, "x")], [], none⟩) :=
  ⟨(new_issue_mutation_order ⟨0, []⟩ ⟨[0], [], [], none⟩ "y").1 IoKind.other rfl,
   (new_issue_mutation_order ⟨0, []⟩ ⟨[], [(0, 0, "x")], [], none⟩ "y").2
     ⟨[0], [(0, 0, "x")], [], none⟩ IoKind.other rfl rfl⟩

/-- C7: within the snapshot range, an id whose file is absent is silently
skipped by the lazy enumerations (no element and no error for it), any
other I/O failure becomes an error element, and every id in range that
produces an element contributes it to the output; concretely, with issues
0,1,2 in the index and issue 1's directory (with its file) deleted from
disk, `get_issues` yields exactly issues 0 and 2 with no error for the
gap. -/
theorem enumeration_skips_absent_surfaces_errors (db : FsDbInner) (fs : Fs)
    (i j cnt : Nat) (hi : i < db.issue_count)
    (hcnt : lookupA i db.comment_count = some cnt) (hj : j < cnt) :
    (fs.openFile i 0 = Except.error IoKind.notFound → issueAt fs i = none) ∧
    (fs.openFile i 0 = Except.error IoKind.other →
      issueAt fs i = some (Except.error (FsError.Io IoKind.other))) ∧
    (∀ o, issueAt fs i = some o → o ∈ get_issues db fs) ∧
    (fs.openFile i j = Except.error IoKind.notFound → commentAt fs i j = none) ∧
    (fs.openFile i j = Except.error IoKind.other →
      commentAt fs i j = some (Except.error (FsError.Io IoKind.other))) ∧
    (∀ o, commentAt fs i j = some o → o ∈ get_issue_comments db fs i) ∧
    get_issues ⟨3, [(0, 1), (1, 1), (2, 1)]⟩
        ⟨[0, 2], [(0, 0, "a"), (2, 0, "c")], [], none⟩ =
      [Except.ok ⟨0, "a"⟩, Except.ok ⟨2, "c"⟩] := by
  refine ⟨?_, ?_, ?_, ?_, ?_, ?_, rfl⟩
  · intro h
    simp [issueAt, h]
  · intro h
    simp [issueAt, h]
  · intro o ho
    exact List.mem_filterMap.mpr ⟨i, List.mem_range.mpr hi, ho⟩
  · intro h
    simp [commentAt, h]
  · intro h
    simp [commentAt, h]
  · intro o ho
    simp only [get_issue_comments, hcnt]
    exact List.mem_filterMap.mpr ⟨j, List.mem_range.mpr hj, ho⟩

theorem enumeration_skips_absent_surfaces_errors_witness :
    get_issues ⟨3, [(0, 1), (1, 1), (2, 1)]⟩
        ⟨[0, 2], [(0, 0, "a"), (2, 0, "c")], [], none⟩ =
      [Except.ok ⟨0, "a"⟩, Except.ok ⟨2, "c"⟩] :=
  (enumeration_skips_absent_surfaces_errors ⟨1, [(0, 2)]⟩
    ⟨[0], [(0, 0, "x")], [], none⟩ 0 1 2 (by decide) rfl (by decide)).2.2.2.2.2.2

theorem parseEntryLine_bad (line : List Char) (h : goodEntryLine line = false) :
    parseEntryLine line = Except.error FsError.BadIndex := by
  cases hs : splitSp line with
  | nil => simp [parseEntryLine, hs]
  | cons k tl =>
    cases tl with
    | nil => simp [parseEntryLine, hs]
    | cons v rest =>
      cases rest with
      | nil =>
        simp only [parseEntryLine, hs]
        cases hk : parseU32 k with
        | none => rfl
        | some kn =>
          cases hv : parseU32 (trimEndL v) with
          | none => rfl
          | some vn =>
            exfalso
            have hg : goodEntryLine line = true := by
              simp [goodEntryLine, hs, hk, hv]
            rw [hg] at h
            exact Bool.noConfusion h
      | cons r rs =>
        simp only [parseEntryLine, hs]
        cases hk : parseU32 k with
        | none => rfl
        | some kn =>
          cases hv : parseU32 (trimEndL v) with
          | none => rfl
          | some vn => simp

theorem parseEntryLine_good (line : List Char) (h : goodEntryLine line = true) :
    ∃ kv, parseEntryLine line = Except.ok kv := by
  cases hs : splitSp line with
  | nil => simp [goodEntryLine, hs] at h
  | cons k tl =>
    cases tl with
    | nil => simp [goodEntryLine, hs] at h
    | cons v rest =>
      cases rest with
      | nil =>
        simp only [goodEntryLine, hs, Bool.and_eq_true, Option.isSome_iff_exists] at h
        obtain ⟨⟨kn, hk⟩, vn, hv⟩ := h
        exact ⟨(kn, vn), by simp [parseEntryLine, hs, hk, hv]⟩
      | cons r rs => simp [goodEntryLine, hs] at h

theorem readEntries_bad (ls : List (List Char)) :
    ∀ acc, ls.all goodEntryLine = false →
      readEntries ls acc = Except.error FsError.BadIndex := by
  induction ls with
  | nil =>
    intro acc h
    simp at h
  | cons l tl ih =>
    intro acc h
    cases hgl : goodEntryLine l with
    | false => simp [readEntries, parseEntryLine_bad l hgl]
    | true =>
      obtain ⟨kv, hkv⟩ := parseEntryLine_good l hgl
      have htl : tl.all goodEntryLine = false := by
        rw [List.all_cons, hgl] at h
        simpa using h
      simp [readEntries, hkv, ih _ htl]

/-- C9: every `index.txt` content that violates the line-oriented format —
no first line at all, a first line that does not parse as a `u32` after
trimming, or an entry line without exactly two space-separated fields whose
first parses as a `u32` and whose second parses after trimming (so a
malformed integer, a missing field, or trailing tokens) — makes
`read_index` fail with the fatal `BadIndex` error, and `FsDb.new` then
propagates that error instead of falling back to a directory rescan. -/
theorem read_index_rejects_malformed (file : List Char) (fs : Fs)
    (hf : fs.index = some file) (hbad : goodIndex file = false) :
    read_index file = Except.error FsError.BadIndex ∧
    FsDb.new fs = Except.error FsError.BadIndex := by
  have h1 : read_index file = Except.error FsError.BadIndex := by
    cases hs : splitLines file with
    | nil => simp [read_index, hs]
    | cons l0 rest =>
      simp only [goodIndex, hs] at hbad
      cases hp : parseU32 (trimEndL l0) with
      | none => simp [read_index, hs, hp]
      | some ic =>
        rw [hp] at hbad
        simp only [Option.isSome_some, Bool.true_and] at hbad
        simp [read_index, hs, hp, readEntries_bad rest [] hbad]
  exact ⟨h1, by simp [FsDb.new, hf, h1]⟩

theorem read_index_rejects_malformed_witness :
    read_index ['a', '\n'] = Except.error FsError.BadIndex ∧
    FsDb.new ⟨[], [], [], some ['a', '\n']⟩ = Except.error FsError.BadIndex :=
  read_index_rejects_malformed ['a', '\n'] ⟨[], [], [], some ['a', '\n']⟩
    rfl (by decide)

theorem digitChar_isDigit (d : Nat) : (digitChar d).isDigit = true := by
  unfold digitChar
  split <;> rfl

theorem digitChar_toNat (d : Nat) (h : d < 10) : (digitChar d).toNat = 48 + d := by
  interval_cases d <;> rfl

theorem natDigitsAux_spec (fuel : Nat) : ∀ n, n < fuel →
    natDigitsAux fuel n ≠ [] ∧ (natDigitsAux fuel n).all Char.isDigit = true ∧
      digitsVal (natDigitsAux fuel n) = n := by
  induction fuel with
  | zero => intro n hn; omega
  | succ fuel ih =>
    intro n hn
    by_cases h10 : n < 10
    · refine ⟨by simp [natDigitsAux, h10], by simp [natDigitsAux, h10, digitChar_isDigit],
        ?_⟩
      simp [natDigitsAux, h10, digitsVal, digitChar_toNat n h10]
    · have hdiv : n / 10 < fuel := by
        have := Nat.div_lt_self (by omega : 0 < n) (by omega : 1 < 10)
        omega
      obtain ⟨hne, hall, hval⟩ := ih (n / 10) hdiv
      have heq : natDigitsAux (fuel + 1) n =
          natDigitsAux fuel (n / 10) ++ [digitChar (n % 10)] := by
        simp [natDigitsAux, h10]
      refine ⟨by simp [heq], ?_, ?_⟩
      · simp [heq, List.all_append, hall, digitChar_isDigit]
      · have hmod : n % 10 < 10 := Nat.mod_lt _ (by omega)
        have : digitsVal (natDigitsAux fuel (n / 10) ++ [digitChar (n % 10)]) =
            digitsVal (natDigitsAux fuel (n / 10)) * 10 + ((digitChar (n % 10)).toNat - 48) := by
          simp [digitsVal, List.foldl_append]
        rw [heq, this, hval, digitChar_toNat _ hmod]
        omega

theorem natDigits_ne_nil (n : Nat) : natDigits n ≠ [] :=
  (natDigitsAux_spec (n + 1) n (by omega)).1

theorem natDigits_all_digits (n : Nat) : (natDigits n).all Char.isDigit = true :=
  (natDigitsAux_spec (n + 1) n (by omega)).2.1

theorem digitsVal_natDigits (n : Nat) : digitsVal (natDigits n) = n :=
  (natDigitsAux_spec (n + 1) n (by omega)).2.2

theorem isDigit_not_ws (c : Char) (h : c.isDigit = true) : c.isWhitespace = false := by
  cases hw : c.isWhitespace
  · rfl
  · exfalso
    have hd : ((c = ' ' ∨ c = '\t') ∨ c = '\r') ∨ c = '\n' := by
      simpa [Char.isWhitespace] using hw
    rcases hd with ((rfl | rfl) | rfl) | rfl <;> exact absurd h (by decide)

theorem isDigit_ne_nl (c : Char) (h : c.isDigit = true) : c ≠ '\n' := by
  rintro rfl
  exact absurd h (by decide)

theorem isDigit_ne_sp (c : Char) (h : c.isDigit = true) : c ≠ ' ' := by
  rintro rfl
  exact absurd h (by decide)

theorem isDigit_ne_plus (c : Char) (h : c.isDigit = true) : c ≠ '+' := by
  rintro rfl
  exact absurd h (by decide)

theorem natDigits_no_nl (n : Nat) : '\n' ∉ natDigits n := by
  intro hm
  have := List.all_eq_true.mp (natDigits_all_digits n) _ hm
  exact absurd this (by decide)

theorem natDigits_no_sp (n : Nat) : ' ' ∉ natDigits n := by
  intro hm
  have := List.all_eq_true.mp (natDigits_all_digits n) _ hm
  exact absurd this (by decide)

theorem dropWhile_no_ws (m : List Char) (h : ∀ c ∈ m, c.isWhitespace = false) :
    m.dropWhile Char.isWhitespace = m := by
  cases m with
  | nil => rfl
  | cons c t => simp [List.dropWhile_cons, h c (by simp)]

theorem trimEndL_of_digits (l : List Char) (h : l.all Char.isDigit = true) :
    trimEndL l = l := by
  unfold trimEndL
  rw [dropWhile_no_ws, List.reverse_reverse]
  intro c hc
  exact isDigit_not_ws c (List.all_eq_true.mp h _ (List.mem_reverse.mp hc))

theorem trimEndL_digits_nl (l : List Char) (h : l.all Char.isDigit = true) :
    trimEndL (l ++ ['\n']) = l := by
  unfold trimEndL
  rw [List.reverse_append]
  simp only [List.reverse_cons, List.reverse_nil, List.nil_append, List.singleton_append,
    List.dropWhile_cons]
  rw [if_pos (by decide)]
  rw [dropWhile_no_ws, List.reverse_reverse]
  intro c hc
  exact isDigit_not_ws c (List.all_eq_true.mp h _ (List.mem_reverse.mp hc))

theorem parseU32_natDigits (n : Nat) (h : n < u32Mod) :
    parseU32 (natDigits n) = some n := by
  have hne := natDigits_ne_nil n
  have hall := natDigits_all_digits n
  have hval := digitsVal_natDigits n
  have hhead : ¬ (natDigits n).head? = some '+' := by
    cases hd : natDigits n with
    | nil => simp
    | cons c t =>
      simp only [List.head?_cons, Option.some.injEq]
      intro hc
      subst hc
      have : ('+' : Char).isDigit = true :=
        List.all_eq_true.mp (hd ▸ hall) _ (by simp)
      exact absurd this (by decide)
  simp only [parseU32, if_neg hhead, if_neg hne, hall, if_pos, hval, if_pos h]

theorem splitLines_append (l rest : List Char) (h : '\n' ∉ l) :
    splitLines (l ++ '\n' :: rest) = (l ++ ['\n']) :: splitLines rest := by
  induction l with
  | nil => simp [splitLines]
  | cons c t ih =>
    have hc : ¬ c = '\n' := fun hh => h (hh ▸ List.mem_cons_self c t)
    have ht : '\n' ∉ t := fun hm => h (List.mem_cons_of_mem _ hm)
    simp only [List.cons_append, splitLines, if_neg hc, List.append_eq, ih ht]

theorem splitSp_append (a b : List Char) (h : ' ' ∉ a) :
    splitSp (a ++ ' ' :: b) = a :: splitSp b := by
  induction a with
  | nil => simp [splitSp]
  | cons c t ih =>
    have hc : ¬ c = ' ' := fun hh => h (hh ▸ List.mem_cons_self c t)
    have ht : ' ' ∉ t := fun hm => h (List.mem_cons_of_mem _ hm)
    simp only [List.cons_append, splitSp, if_neg hc, List.append_eq, ih ht]

theorem splitSp_no_sp (a : List Char) (h : ' ' ∉ a) : splitSp a = [a] := by
  induction a with
  | nil => rfl
  | cons c t ih =>
    have hc : ¬ c = ' ' := fun hh => h (hh ▸ List.mem_cons_self c t)
    have ht : ' ' ∉ t := fun hm => h (List.mem_cons_of_mem _ hm)
    simp only [splitSp, if_neg hc, ih ht]

theorem parseEntryLine_entryLine (k v : Nat) (hk : k < u32Mod) (hv : v < u32Mod) :
    parseEntryLine (entryLine (k, v)) = Except.ok (k, v) := by
  have hsplit : splitSp (entryLine (k, v)) = [natDigits k, natDigits v ++ ['\n']] := by
    have he : entryLine (k, v) = natDigits k ++ ' ' :: (natDigits v ++ ['\n']) := by
      simp [entryLine]
    rw [he, splitSp_append _ _ (natDigits_no_sp k)]
    rw [splitSp_no_sp]
    intro hm
    rcases List.mem_append.mp hm with hm | hm
    · exact natDigits_no_sp v hm
    · simp at hm
  simp only [parseEntryLine, hsplit, parseU32_natDigits k hk,
    trimEndL_digits_nl _ (natDigits_all_digits v), parseU32_natDigits v hv,
    if_pos]

theorem readEntries_map (entries : List (Nat × Nat)) :
    ∀ acc, (∀ kv ∈ entries, kv.1 < u32Mod ∧ kv.2 < u32Mod) →
      readEntries (entries.map entryLine) acc =
        Except.ok (entries.foldl (fun a kv => insertA kv.1 kv.2 a) acc) := by
  induction entries with
  | nil => intro acc _; rfl
  | cons kv tl ih =>
    intro acc hb
    obtain ⟨hk, hv⟩ := hb kv (by simp)
    have hp : parseEntryLine (entryLine kv) = Except.ok kv := by
      have := parseEntryLine_entryLine kv.1 kv.2 hk hv
      simpa using this
    simp only [List.map_cons, readEntries, hp, List.foldl_cons]
    exact ih _ (fun x hx => hb x (List.mem_cons_of_mem _ hx))

theorem insertA_not_mem (k v : Nat) (l : List (Nat × Nat))
    (h : k ∉ l.map Prod.fst) : insertA k v l = l ++ [(k, v)] := by
  induction l with
  | nil => rfl
  | cons kv t ih =>
    have hk : ¬ kv.1 = k := fun hh => h (by simp [hh.symm])
    simp only [insertA, if_neg hk, List.cons_append, List.cons.injEq, true_and]
    exact ih (fun hm => h (by simp at hm ⊢; tauto))

theorem foldl_insert_nodup (entries : List (Nat × Nat)) :
    ∀ acc : List (Nat × Nat),
      (∀ x ∈ acc.map Prod.fst, x ∉ entries.map Prod.fst) →
      (entries.map Prod.fst).Nodup →
      entries.foldl (fun a kv => insertA kv.1 kv.2 a) acc = acc ++ entries := by
  induction entries with
  | nil => intro acc _ _; simp
  | cons kv tl ih =>
    intro acc hdisj hnd
    have hk : kv.1 ∉ acc.map Prod.fst := fun hm => hdisj _ hm (by simp)
    simp only [List.map_cons, List.nodup_cons] at hnd
    simp only [List.foldl_cons, insertA_not_mem kv.1 kv.2 acc hk]
    rw [ih (acc ++ [kv]) ?_ hnd.2]
    · simp
    · intro x hx
      simp only [List.map_append, List.mem_append, List.map_cons, List.map_nil,
        List.mem_singleton] at hx
      rcases hx with hx | hx
      · intro hmem
        exact hdisj _ hx (List.mem_cons_of_mem _ hmem)
      · rw [hx]
        exact hnd.1

theorem splitLines_save_index (db : FsDbInner) :
    splitLines (save_index db) =
      (natDigits db.issue_count ++ ['\n']) :: db.comment_count.map entryLine := by
  unfold save_index
  rw [splitLines_append _ _ (natDigits_no_nl db.issue_count)]
  congr 1
  induction db.comment_count with
  | nil => rfl
  | cons kv tl ih =>
    have harr : entryLine kv ++ (tl.map entryLine).flatten =
        (natDigits kv.1 ++ ' ' :: natDigits kv.2) ++ '\n' :: (tl.map entryLine).flatten := by
      simp [entryLine]
    have hnl : '\n' ∉ natDigits kv.1 ++ ' ' :: natDigits kv.2 := by
      intro hm
      rcases List.mem_append.mp hm with hm | hm
      · exact natDigits_no_nl kv.1 hm
      · rcases List.mem_cons.mp hm with hm | hm
        · exact absurd hm.symm (by decide)
        · exact natDigits_no_nl kv.2 hm
    simp only [List.map_cons, List.flatten_cons, harr, splitLines_append _ _ hnl, ih]
    simp [entryLine]

/-- C3: saving the in-memory index and reading the produced `index.txt` back
(the load-from-file open path) yields the same `issue_count` and a
`comment_count` equal as a mapping, for every state whose counters are valid
`u32` values and whose map has no duplicate keys (a `HashMap` invariant);
the iteration order behind the written lines is immaterial since the claim
is stated for every order. -/
theorem save_read_index_roundtrip (db : FsDbInner)
    (h1 : db.issue_count < u32Mod)
    (h2 : ∀ kv ∈ db.comment_count, kv.1 < u32Mod ∧ kv.2 < u32Mod)
    (h3 : (db.comment_count.map Prod.fst).Nodup) :
    ∃ db', read_index (save_index db) = Except.ok db' ∧
      db'.issue_count = db.issue_count ∧
      ∀ k, lookupA k db'.comment_count = lookupA k db.comment_count := by
  refine ⟨db, ?_, rfl, fun k => rfl⟩
  simp only [read_index, splitLines_save_index,
    trimEndL_digits_nl _ (natDigits_all_digits db.issue_count),
    parseU32_natDigits _ h1, readEntries_map _ [] h2,
    foldl_insert_nodup _ [] (by simp) h3, List.nil_append]

theorem save_read_index_roundtrip_witness :
    ∃ db', read_index (save_index ⟨2, [(0, 1), (1, 3)]⟩) = Except.ok db' ∧
      db'.issue_count = (2 : Nat) ∧
      ∀ k, lookupA k db'.comment_count = lookupA k [(0, 1), (1, 3)] :=
  save_read_index_roundtrip ⟨2, [(0, 1), (1, 3)]⟩ (by decide)
    (by decide) (by decide)

theorem fold_scan_spec (fs : Fs) (dirs : List Nat) :
    ∀ acc : Nat × List (Nat × Nat),
      acc.1 ≤ (dirs.foldl
        (fun st d => (max st.1 ((d + 1) % u32Mod),
          insertA d (maxComment fs d) st.2)) acc).1 ∧
      (∀ d ∈ dirs, (d + 1) % u32Mod ≤ (dirs.foldl
        (fun st d => (max st.1 ((d + 1) % u32Mod),
          insertA d (maxComment fs d) st.2)) acc).1) ∧
      ((dirs.foldl (fun st d => (max st.1 ((d + 1) % u32Mod),
          insertA d (maxComment fs d) st.2)) acc).1 = acc.1 ∨
        ∃ d ∈ dirs, (dirs.foldl (fun st d => (max st.1 ((d + 1) % u32Mod),
          insertA d (maxComment fs d) st.2)) acc).1 = (d + 1) % u32Mod) ∧
      (∀ d ∈ dirs, lookupA d (dirs.foldl
        (fun st d => (max st.1 ((d + 1) % u32Mod),
          insertA d (maxComment fs d) st.2)) acc).2 = some (maxComment fs d)) ∧
      (∀ d, d ∉ dirs → lookupA d (dirs.foldl
        (fun st d => (max st.1 ((d + 1) % u32Mod),
          insertA d (maxComment fs d) st.2)) acc).2 = lookupA d acc.2) := by
  induction dirs with
  | nil =>
    intro acc
    exact ⟨le_refl _, by simp, Or.inl rfl, by simp, fun d _ => rfl⟩
  | cons d0 tl ih =>
    intro acc
    set acc' : Nat × List (Nat × Nat) :=
      (max acc.1 ((d0 + 1) % u32Mod), insertA d0 (maxComment fs d0) acc.2) with hacc'
    obtain ⟨hle, hub, hmax, hlook, hlookn⟩ := ih acc'
    have hstep : ∀ x, (d0 :: tl).foldl
        (fun st d => (max st.1 ((d + 1) % u32Mod),
          insertA d (maxComment fs d) st.2)) x =
        tl.foldl (fun st d => (max st.1 ((d + 1) % u32Mod),
          insertA d (maxComment fs d) st.2))
          (max x.1 ((d0 + 1) % u32Mod), insertA d0 (maxComment fs d0) x.2) :=
      fun x => rfl
    rw [hstep acc]
    refine ⟨le_trans (le_trans (le_max_left _ _) (le_refl acc'.1)) hle, ?_, ?_, ?_, ?_⟩
    · intro d hd
      rcases List.mem_cons.mp hd with rfl | hd
      · exact le_trans (le_max_right _ _) hle
      · exact hub d hd
    · rcases hmax with h | ⟨d, hd, h⟩
      · rcases max_choice acc.1 ((d0 + 1) % u32Mod) with hm | hm
        · exact Or.inl (by rw [h, hacc']; exact hm)
        · exact Or.inr ⟨d0, by simp, by rw [h, hacc']; exact hm⟩
      · exact Or.inr ⟨d, List.mem_cons_of_mem _ hd, h⟩
    · intro d hd
      rcases List.mem_cons.mp hd with rfl | hd
      · by_cases hdt : d ∈ tl
        · exact hlook d hdt
        · rw [hlookn d hdt, hacc']
          exact lookupA_insert_self _ _ _
      · exact hlook d hd
    · intro d hd
      have hd0 : d ≠ d0 := fun hh => hd (hh ▸ List.mem_cons_self d0 tl)
      have hdt : d ∉ tl := fun hh => hd (List.mem_cons_of_mem _ hh)
      rw [hlookn d hdt, hacc']
      exact lookupA_insert_ne d0 d _ acc.2 hd0

theorem foldl_mc_spec (d : Nat) (files : List (Nat × Nat × String)) :
    ∀ acc : Nat,
      acc ≤ files.foldl
        (fun m e => if e.1 = d then max m ((e.2.1 + 1) % u32Mod) else m) acc ∧
      (∀ e ∈ files, e.1 = d → (e.2.1 + 1) % u32Mod ≤ files.foldl
        (fun m e => if e.1 = d then max m ((e.2.1 + 1) % u32Mod) else m) acc) ∧
      (files.foldl (fun m e => if e.1 = d then max m ((e.2.1 + 1) % u32Mod) else m)
          acc = acc ∨
        ∃ e ∈ files, e.1 = d ∧ files.foldl
          (fun m e => if e.1 = d then max m ((e.2.1 + 1) % u32Mod) else m) acc =
            (e.2.1 + 1) % u32Mod) := by
  induction files with
  | nil => intro acc; exact ⟨le_refl _, by simp, Or.inl rfl⟩
  | cons e0 tl ih =>
    intro acc
    by_cases he0 : e0.1 = d
    · have hstep : (e0 :: tl).foldl
          (fun m e => if e.1 = d then max m ((e.2.1 + 1) % u32Mod) else m) acc =
          tl.foldl (fun m e => if e.1 = d then max m ((e.2.1 + 1) % u32Mod) else m)
            (max acc ((e0.2.1 + 1) % u32Mod)) := by
        simp [List.foldl_cons, he0]
      obtain ⟨hle, hub, hmax⟩ := ih (max acc ((e0.2.1 + 1) % u32Mod))
      rw [hstep]
      refine ⟨le_trans (le_max_left _ _) hle, ?_, ?_⟩
      · intro e he hed
        rcases List.mem_cons.mp he with rfl | he
        · exact le_trans (le_max_right _ _) hle
        · exact hub e he hed
      · rcases hmax with h | ⟨e, he, hed, h⟩
        · rcases max_choice acc ((e0.2.1 + 1) % u32Mod) with hm | hm
          · exact Or.inl (h.trans hm)
          · exact Or.inr ⟨e0, by simp, he0, h.trans hm⟩
        · exact Or.inr ⟨e, List.mem_cons_of_mem _ he, hed, h⟩
    · have hstep : (e0 :: tl).foldl
          (fun m e => if e.1 = d then max m ((e.2.1 + 1) % u32Mod) else m) acc =
          tl.foldl (fun m e => if e.1 = d then max m ((e.2.1 + 1) % u32Mod) else m)
            acc := by
        simp [List.foldl_cons, he0]
      obtain ⟨hle, hub, hmax⟩ := ih acc
      rw [hstep]
      refine ⟨hle, ?_, ?_⟩
      · intro e he hed
        rcases List.mem_cons.mp he with rfl | he
        · exact absurd hed he0
        · exact hub e he hed
      · rcases hmax with h | ⟨e, he, hed, h⟩
        · exact Or.inl h
        · exact Or.inr ⟨e, List.mem_cons_of_mem _ he, hed, h⟩

/-- C4: opening a store whose root has no `index.txt` rebuilds the index by
scanning: `issue_count` is `max(issue directory name) + 1` over the issue
directories (`0` if there are none), each scanned issue's comment count is
`max(comment file name) + 1` over its files (`0` if it has none), unscanned
ids are absent from the map, and the freshly computed index is persisted to
`index.txt` before `open` returns.  The `u32` bounds keep `id + 1` from
wrapping, as on any scan of ids the store itself produced. -/
theorem create_index_rebuild (fs : Fs)
    (hi : fs.index = none)
    (hd : ∀ d ∈ fs.dirs, d + 1 < u32Mod)
    (hc : ∀ e ∈ fs.files, e.2.1 + 1 < u32Mod) :
    ∃ db fs', FsDb.new fs = Except.ok (db, fs') ∧
      (∀ d ∈ fs.dirs, d < db.issue_count) ∧
      (db.issue_count = 0 ∨ ∃ d ∈ fs.dirs, db.issue_count = d + 1) ∧
      (∀ d ∈ fs.dirs, ∃ m, lookupA d db.comment_count = some m ∧
        (∀ e ∈ fs.files, e.1 = d → e.2.1 < m) ∧
        (m = 0 ∨ ∃ e ∈ fs.files, e.1 = d ∧ m = e.2.1 + 1)) ∧
      (∀ d, d ∉ fs.dirs → lookupA d db.comment_count = none) ∧
      fs'.index = some (save_index db) := by
  refine ⟨(create_index fs).1, (create_index fs).2, ?_, ?_, ?_, ?_, ?_, ?_⟩
  · simp [FsDb.new, hi]
  · intro d hdm
    have h := (fold_scan_spec fs fs.dirs (0, [])).2.1 d hdm
    rw [Nat.mod_eq_of_lt (hd d hdm)] at h
    have : (create_index fs).1.issue_count =
        (fs.dirs.foldl (fun st d => (max st.1 ((d + 1) % u32Mod),
          insertA d (maxComment fs d) st.2)) (0, [])).1 := rfl
    omega
  · have h := (fold_scan_spec fs fs.dirs (0, [])).2.2.1
    rcases h with h | ⟨d, hdm, h⟩
    · exact Or.inl h
    · refine Or.inr ⟨d, hdm, ?_⟩
      rw [Nat.mod_eq_of_lt (hd d hdm)] at h
      exact h
  · intro d hdm
    have h := (fold_scan_spec fs fs.dirs (0, [])).2.2.2.1 d hdm
    refine ⟨maxComment fs d, h, ?_, ?_⟩
    · intro e he hed
      have hub := (foldl_mc_spec d fs.files 0).2.1 e he hed
      rw [Nat.mod_eq_of_lt (hc e he)] at hub
      have : maxComment fs d = fs.files.foldl
          (fun m e => if e.1 = d then max m ((e.2.1 + 1) % u32Mod) else m) 0 := rfl
      omega
    · have hm := (foldl_mc_spec d fs.files 0).2.2
      rcases hm with hm | ⟨e, he, hed, hm⟩
      · exact Or.inl hm
      · refine Or.inr ⟨e, he, hed, ?_⟩
        rw [Nat.mod_eq_of_lt (hc e he)] at hm
        exact hm
  · intro d hdm
    exact (fold_scan_spec fs fs.dirs (0, [])).2.2.2.2 d hdm
  · rfl

theorem create_index_rebuild_witness :
    ∃ db fs', FsDb.new ⟨[0, 2], [(0, 0, "a"), (0, 5, "b"), (2, 1, "c")], [], none⟩ =
        Except.ok (db, fs') ∧
      (∀ d ∈ [0, 2], d < db.issue_count) ∧
      (db.issue_count = 0 ∨ ∃ d ∈ [0, 2], db.issue_count = d + 1) ∧
      (∀ d ∈ [0, 2], ∃ m, lookupA d db.comment_count = some m ∧
        (∀ e ∈ [((0 : Nat), (0 : Nat), "a"), (0, 5, "b"), (2, 1, "c")],
          e.1 = d → e.2.1 < m) ∧
        (m = 0 ∨ ∃ e ∈ [((0 : Nat), (0 : Nat), "a"), (0, 5, "b"), (2, 1, "c")],
          e.1 = d ∧ m = e.2.1 + 1)) ∧
      (∀ d, d ∉ [0, 2] → lookupA d db.comment_count = none) ∧
      fs'.index = some (save_index db) :=
  create_index_rebuild ⟨[0, 2], [(0, 0, "a"), (0, 5, "b"), (2, 1, "c")], [], none⟩
    rfl (by decide) (by decide)

theorem createFile_ok (fs : Fs) (i c : Nat) (content : String)
    (hb : (i, c) ∉ fs.broken) (hn : ∀ s, (i, c, s) ∉ fs.files) (hd : i ∈ fs.dirs) :
    fs.createFile i c content =
      Except.ok ⟨fs.dirs, (i, c, content) :: fs.files, fs.broken, fs.index⟩ := by
  have hf : fs.files.find? (fun e => e.1 == i && e.2.1 == c) = none :=
    (find?_file_eq_none _ _ _).mpr hn
  simp [Fs.createFile, hb, hf, hd]

theorem createFile_exists (fs : Fs) (i c : Nat) (content : String)
    (hb : (i, c) ∉ fs.broken) (s : String) (hs : (i, c, s) ∈ fs.files) :
    fs.createFile i c content = Except.error IoKind.other := by
  have hf : (fs.files.find? (fun e => e.1 == i && e.2.1 == c)).isSome :=
    (find?_file_isSome _ _ _).mpr ⟨s, hs⟩
  simp [Fs.createFile, hb, hf]

theorem u32Mod_pos : 0 < u32Mod := by norm_num [u32Mod]

theorem one_lt_u32Mod : 1 < u32Mod := by norm_num [u32Mod]

theorem step_issue_ok (st : St) (content : String) (K : Nat) (S : Nat → Nat)
    (h : Inv K S st) (hK : K < u32Mod) :
    (step st (Op.issue content)).1 = Except.ok K ∧
    Inv (K + 1) S (step st (Op.issue content)).2 := by
  have hic : st.db.issue_count = K := by rw [h.hic]; exact Nat.mod_eq_of_lt hK
  have hdirK : K ∉ st.fs.dirs := fun hm => absurd ((h.hdirs K).mp hm) (lt_irrefl K)
  have hcd : st.fs.createDir K =
      Except.ok ⟨K :: st.fs.dirs, st.fs.files, st.fs.broken, st.fs.index⟩ := by
    simp [Fs.createDir, hdirK]
  have hnf : ∀ s, (K, 0, s) ∉ st.fs.files :=
    fun s hm => absurd (h.hfK _ hm) (lt_irrefl K)
  have hbk : ((K : Nat), (0 : Nat)) ∉ st.fs.broken := by rw [h.hbroken]; simp
  have hcf := createFile_ok ⟨K :: st.fs.dirs, st.fs.files, st.fs.broken, st.fs.index⟩
    K 0 content hbk hnf (by simp)
  have hres : step st (Op.issue content) =
      (Except.ok K,
       ⟨⟨(K + 1) % u32Mod, insertA K 1 st.db.comment_count⟩,
        ⟨K :: st.fs.dirs, (K, 0, content) :: st.fs.files, st.fs.broken, st.fs.index⟩⟩) := by
    simp [step, new_issue, hic, hcd, hcf]
  refine ⟨by rw [hres], ?_⟩
  rw [hres]
  refine ⟨by omega, rfl, ?_, h.hbroken, ?_, ?_, ?_, ?_, ?_, ?_⟩
  · intro d
    rw [List.mem_cons, h.hdirs d]
    omega
  · intro e he
    rcases List.mem_cons.mp he with rfl | he
    · omega
    · have := h.hfK e he
      omega
  · intro i hi
    rw [lookupA_insert_ne K i 1 _ (by omega)]
    exact h.hlookn i (by omega)
  · intro i hi
    by_cases hik : i < K
    · exact h.hSb i hik
    · have : i = K := by omega
      rw [this, h.hS0 K (le_refl K)]
      exact u32Mod_pos
  · intro i hi
    by_cases hik : i < K
    · rw [lookupA_insert_ne K i 1 _ (by omega)]
      exact h.hlook i hik
    · have hiK : i = K := by omega
      subst hiK
      rw [lookupA_insert_self, h.hS0 i (le_refl i)]
      rw [Nat.mod_eq_of_lt one_lt_u32Mod]
  · intro i hi c
    by_cases hik : i < K
    · have hiK : i ≠ K := by omega
      constructor
      · rintro ⟨s, hs⟩
        rcases List.mem_cons.mp hs with hh | hh
        · exact absurd (congrArg Prod.fst hh) (by simpa using hiK)
        · exact (h.hfiles i hik c).mp ⟨s, hh⟩
      · intro hc
        obtain ⟨s, hs⟩ := (h.hfiles i hik c).mpr hc
        exact ⟨s, List.mem_cons_of_mem _ hs⟩
    · have hiK : i = K := by omega
      subst hiK
      rw [h.hS0 i (le_refl i)]
      constructor
      · rintro ⟨s, hs⟩
        rcases List.mem_cons.mp hs with hh | hh
        · have : c = 0 := by
            have := congrArg (fun x => x.2.1) hh
            simpa using this
          omega
        · exact absurd (h.hfK _ hh) (lt_irrefl i)
      · intro hc
        have : c = 0 := by omega
        subst this
        exact ⟨content, by simp⟩
  · intro i hi
    exact h.hS0 i (by omega)

theorem step_issue_wrap (st : St) (content : String) (S : Nat → Nat)
    (h : Inv u32Mod S st) :
    (step st (Op.issue content)).1 = Except.error (FsError.Io IoKind.other) ∧
    (step st (Op.issue content)).2 = st := by
  have hic : st.db.issue_count = 0 := by rw [h.hic]; exact Nat.mod_self _
  have h0 : 0 ∈ st.fs.dirs := (h.hdirs 0).mpr u32Mod_pos
  have hcd : st.fs.createDir 0 = Except.error IoKind.other := by
    simp [Fs.createDir, h0]
  have hres : step st (Op.issue content) =
      (Except.error (FsError.Io IoKind.other), ⟨st.db, st.fs⟩) := by
    simp [step, new_issue, hic, hcd]
  exact ⟨by rw [hres], by rw [hres]⟩

theorem step_comment_miss (st : St) (i : Nat) (content : String) (K : Nat)
    (S : Nat → Nat) (h : Inv K S st) (hi : K ≤ i) :
    (step st (Op.comment i content)).1 = Except.error (FsError.NoIssue i) ∧
    (step st (Op.comment i content)).2 = st := by
  have hl := h.hlookn i hi
  have hres : step st (Op.comment i content) =
      (Except.error (FsError.NoIssue i), ⟨st.db, st.fs⟩) := by
    simp [step, new_comment, hl]
  exact ⟨by rw [hres], by rw [hres]⟩

theorem step_comment_ok (st : St) (i : Nat) (content : String) (K : Nat)
    (S : Nat → Nat) (h : Inv K S st) (hi : i < K) (hS : S i + 1 < u32Mod) :
    (step st (Op.comment i content)).1 = Except.ok (1 + S i) ∧
    Inv K (fun j => if j = i then S i + 1 else S j)
      (step st (Op.comment i content)).2 := by
  have hl := h.hlook i hi
  rw [Nat.mod_eq_of_lt (by omega : 1 + S i < u32Mod)] at hl
  have hnf : ∀ s, (i, 1 + S i, s) ∉ st.fs.files := by
    intro s hm
    have := (h.hfiles i hi (1 + S i)).mp ⟨s, hm⟩
    omega
  have hbk : (i, 1 + S i) ∉ st.fs.broken := by rw [h.hbroken]; simp
  have hdm : i ∈ st.fs.dirs := (h.hdirs i).mpr hi
  have hcf := createFile_ok st.fs i (1 + S i) content hbk hnf hdm
  have hres : step st (Op.comment i content) =
      (Except.ok (1 + S i),
       ⟨⟨st.db.issue_count, insertA i ((1 + S i + 1) % u32Mod) st.db.comment_count⟩,
        ⟨st.fs.dirs, (i, 1 + S i, content) :: st.fs.files, st.fs.broken,
         st.fs.index⟩⟩) := by
    simp [step, new_comment, hl, hcf]
  refine ⟨by rw [hres], ?_⟩
  rw [hres]
  refine ⟨h.hK, h.hic, h.hdirs, h.hbroken, ?_, ?_, ?_, ?_, ?_, ?_⟩
  · intro e he
    rcases List.mem_cons.mp he with rfl | he
    · exact hi
    · exact h.hfK e he
  · intro j hj
    rw [lookupA_insert_ne i j _ _ (by omega)]
    exact h.hlookn j hj
  · intro j hj
    by_cases hji : j = i
    · rw [if_pos hji]
      exact hS
    · rw [if_neg hji]
      exact h.hSb j hj
  · intro j hj
    by_cases hji : j = i
    · subst hji
      rw [if_pos rfl, lookupA_insert_self]
      have : 1 + S j + 1 = 1 + (S j + 1) := by omega
      rw [this]
    · rw [if_neg hji, lookupA_insert_ne i j _ _ hji]
      exact h.hlook j hj
  · intro j hj c
    by_cases hji : j = i
    · subst hji
      rw [if_pos rfl]
      constructor
      · rintro ⟨s, hs⟩
        rcases List.mem_cons.mp hs with hh | hh
        · have : c = 1 + S j := by
            have := congrArg (fun x => x.2.1) hh
            simpa using this
          omega
        · have := (h.hfiles j hj c).mp ⟨s, hh⟩
          omega
      · intro hc
        by_cases hce : c = 1 + S j
        · subst hce
          exact ⟨content, by simp⟩
        · obtain ⟨s, hs⟩ := (h.hfiles j hj c).mpr (by omega)
          exact ⟨s, List.mem_cons_of_mem _ hs⟩
    · rw [if_neg hji]
      constructor
      · rintro ⟨s, hs⟩
        rcases List.mem_cons.mp hs with hh | hh
        · exact absurd (congrArg Prod.fst hh) (by simpa using hji)
        · exact (h.hfiles j hj c).mp ⟨s, hh⟩
      · intro hc
        obtain ⟨s, hs⟩ := (h.hfiles j hj c).mpr hc
        exact ⟨s, List.mem_cons_of_mem _ hs⟩
  · intro j hj
    rw [if_neg (by omega : ¬ j = i)]
    exact h.hS0 j hj

theorem step_comment_full (st : St) (i : Nat) (content : String) (K : Nat)
    (S : Nat → Nat) (h : Inv K S st) (hi : i < K) (hS : S i + 1 = u32Mod) :
    (step st (Op.comment i content)).1 = Except.error (FsError.Io IoKind.other) ∧
    (step st (Op.comment i content)).2 = st := by
  have hl := h.hlook i hi
  have h1S : 1 + S i = u32Mod := by omega
  rw [h1S, Nat.mod_self] at hl
  have hbk : ((i : Nat), (0 : Nat)) ∉ st.fs.broken := by rw [h.hbroken]; simp
  obtain ⟨s, hs⟩ := (h.hfiles i hi 0).mpr (by omega)
  have hcf := createFile_exists st.fs i 0 content hbk s hs
  have hres : step st (Op.comment i content) =
      (Except.error (FsError.Io IoKind.other), ⟨st.db, st.fs⟩) := by
    simp [step, new_comment, hl, hcf]
  exact ⟨by rw [hres], by rw [hres]⟩

theorem run_spec (ops : List Op) :
    ∀ (st : St) (K : Nat) (S : Nat → Nat), Inv K S st →
      ∃ K' S', Inv K' S' (run st ops).1 ∧ K ≤ K' ∧ (∀ i, S i ≤ S' i) ∧
        issueOks (run st ops).2 = List.range' K (K' - K) ∧
        ∀ i, commentOks i (run st ops).2 = List.range' (1 + S i) (S' i - S i) := by
  induction ops with
  | nil =>
    intro st K S h
    exact ⟨K, S, h, le_refl K, fun i => le_refl _, by simp [run, issueOks],
      fun i => by simp [run, commentOks]⟩
  | cons op ops ih =>
    intro st K S h
    have hrun : run st (op :: ops) =
        ((run (step st op).2 ops).1,
         (op, (step st op).1) :: (run (step st op).2 ops).2) := rfl
    cases op with
    | issue content =>
      by_cases hK : K < u32Mod
      · obtain ⟨hr, hinv⟩ := step_issue_ok st content K S h hK
        obtain ⟨K', S', hinv', hKK, hSS, hiss, hcom⟩ :=
          ih (step st (Op.issue content)).2 (K + 1) S hinv
        refine ⟨K', S', by rw [hrun]; exact hinv', by omega, hSS, ?_, ?_⟩
        · rw [hrun, hr]
          simp only [issueOks]
          rw [hiss]
          have harith : K' - K = (K' - (K + 1)) + 1 := by omega
          rw [harith, List.range'_succ]
        · intro i
          rw [hrun, hr]
          simp only [commentOks]
          exact hcom i
      · have hKe : K = u32Mod := by
          have := h.hK
          omega
        subst hKe
        obtain ⟨hr, hst⟩ := step_issue_wrap st content S h
        obtain ⟨K', S', hinv', hKK, hSS, hiss, hcom⟩ :=
          ih (step st (Op.issue content)).2 u32Mod S (by rw [hst]; exact h)
        refine ⟨K', S', by rw [hrun]; exact hinv', hKK, hSS, ?_, ?_⟩
        · rw [hrun, hr]
          simp only [issueOks]
          exact hiss
        · intro i
          rw [hrun, hr]
          simp only [commentOks]
          exact hcom i
    | comment j content =>
      by_cases hj : j < K
      · by_cases hSj : S j + 1 < u32Mod
        · obtain ⟨hr, hinv⟩ := step_comment_ok st j content K S h hj hSj
          obtain ⟨K', S', hinv', hKK, hSS, hiss, hcom⟩ :=
            ih (step st (Op.comment j content)).2 K
              (fun x => if x = j then S j + 1 else S x) hinv
          refine ⟨K', S', by rw [hrun]; exact hinv', hKK, ?_, ?_, ?_⟩
          · intro i
            have := hSS i
            by_cases hij : i = j
            · subst hij
              rw [if_pos rfl] at this
              omega
            · rw [if_neg hij] at this
              exact this
          · rw [hrun, hr]
            simp only [issueOks]
            exact hiss
          · intro i
            rw [hrun, hr]
            by_cases hji : j = i
            · subst hji
              simp only [commentOks, if_pos rfl]
              have hcomj := hcom j
              rw [if_pos rfl] at hcomj
              rw [hcomj]
              have hSj' : S j + 1 ≤ S' j := by
                have := hSS j
                rw [if_pos rfl] at this
                exact this
              have harith : S' j - S j = (S' j - (S j + 1)) + 1 := by omega
              rw [harith, List.range'_succ]
              have h2 : 1 + (S j + 1) = 1 + S j + 1 := by omega
              rw [h2]
              simp
            · simp only [commentOks, if_neg hji]
              have hcomi := hcom i
              rw [if_neg (fun hh => hji hh.symm)] at hcomi
              exact hcomi
        · have hSj' : S j + 1 = u32Mod := by
            have := h.hSb j hj
            omega
          obtain ⟨hr, hst⟩ := step_comment_full st j content K S h hj hSj'
          obtain ⟨K', S', hinv', hKK, hSS, hiss, hcom⟩ :=
            ih (step st (Op.comment j content)).2 K S (by rw [hst]; exact h)
          refine ⟨K', S', by rw [hrun]; exact hinv', hKK, hSS, ?_, ?_⟩
          · rw [hrun, hr]
            simp only [issueOks]
            exact hiss
          · intro i
            rw [hrun, hr]
            simp only [commentOks]
            exact hcom i
      · obtain ⟨hr, hst⟩ := step_comment_miss st j content K S h (by omega)
        obtain ⟨K', S', hinv', hKK, hSS, hiss, hcom⟩ :=
          ih (step st (Op.comment j content)).2 K S (by rw [hst]; exact h)
        refine ⟨K', S', by rw [hrun]; exact hinv', hKK, hSS, ?_, ?_⟩
        · rw [hrun, hr]
          simp only [issueOks]
          exact hiss
        · intro i
          rw [hrun, hr]
          simp only [commentOks]
          exact hcom i

theorem inv_init (db₀ : FsDbInner) (fs₀ : Fs)
    (h : FsDb.new emptyRoot = Except.ok (db₀, fs₀)) :
    Inv 0 (fun _ => 0) ⟨db₀, fs₀⟩ := by
  have hh : FsDb.new emptyRoot =
      Except.ok (⟨0, []⟩, ⟨[], [], [], some (save_index ⟨0, []⟩)⟩) := rfl
  rw [hh] at h
  have h' : ((⟨0, []⟩ : FsDbInner), (⟨[], [], [], some (save_index ⟨0, []⟩)⟩ : Fs)) =
      (db₀, fs₀) := Except.ok.inj h
  have hdb : db₀ = ⟨0, []⟩ := (Prod.mk.injEq _ _ _ _ ▸ h').1.symm
  have hfs : fs₀ = ⟨[], [], [], some (save_index ⟨0, []⟩)⟩ :=
    (Prod.mk.injEq _ _ _ _ ▸ h').2.symm
  subst hdb
  subst hfs
  exact ⟨Nat.zero_le _, rfl, by simp, rfl, by simp, fun i _ => rfl,
    by omega, by omega, by omega, fun i _ => rfl⟩

/-- C1: starting from a store opened on an empty root, for every sequence of
interleaved `new_issue`/`new_comment` calls, the ids returned by the
successful `new_issue` calls are exactly `0, 1, ..., N-1` in call order,
where `N` is the number of such successful calls. -/
theorem new_issue_ids_sequential (ops : List Op) (db₀ : FsDbInner) (fs₀ : Fs)
    (h : FsDb.new emptyRoot = Except.ok (db₀, fs₀)) :
    issueOks (run ⟨db₀, fs₀⟩ ops).2 =
      List.range (issueOks (run ⟨db₀, fs₀⟩ ops).2).length := by
  obtain ⟨K', S', _, _, _, hiss, _⟩ :=
    run_spec ops ⟨db₀, fs₀⟩ 0 (fun _ => 0) (inv_init db₀ fs₀ h)
  rw [hiss, List.range_eq_range']
  simp [List.length_range']

theorem new_issue_ids_sequential_witness :
    issueOks (run ⟨⟨0, []⟩, ⟨[], [], [], some (save_index ⟨0, []⟩)⟩⟩
        [Op.issue "a", Op.comment 0 "b", Op.issue "c"]).2 =
      List.range (issueOks (run ⟨⟨0, []⟩, ⟨[], [], [], some (save_index ⟨0, []⟩)⟩⟩
        [Op.issue "a", Op.comment 0 "b", Op.issue "c"]).2).length :=
  new_issue_ids_sequential [Op.issue "a", Op.comment 0 "b", Op.issue "c"] _ _ rfl

/-- C2: starting from a store opened on an empty root, for every sequence of
interleaved calls and every issue `i`, the ids returned by the successful
`new_comment` calls targeting `i` are exactly `1, 2, ..., k` in call order
(`k` their number): the first returns 1, the k-th returns k, strictly
increasing, never reused while the store stays open. -/
theorem new_comment_ids_sequential (ops : List Op) (i : Nat) (db₀ : FsDbInner)
    (fs₀ : Fs) (h : FsDb.new emptyRoot = Except.ok (db₀, fs₀)) :
    commentOks i (run ⟨db₀, fs₀⟩ ops).2 =
      List.range' 1 (commentOks i (run ⟨db₀, fs₀⟩ ops).2).length := by
  obtain ⟨K', S', _, _, _, _, hcom⟩ :=
    run_spec ops ⟨db₀, fs₀⟩ 0 (fun _ => 0) (inv_init db₀ fs₀ h)
  rw [hcom i]
  simp [List.length_range']

theorem new_comment_ids_sequential_witness :
    commentOks 0 (run ⟨⟨0, []⟩, ⟨[], [], [], some (save_index ⟨0, []⟩)⟩⟩
        [Op.issue "a", Op.comment 0 "b", Op.comment 0 "c"]).2 =
      List.range' 1 (commentOks 0 (run ⟨⟨0, []⟩, ⟨[], [], [], some (save_index ⟨0, []⟩)⟩⟩
        [Op.issue "a", Op.comment 0 "b", Op.comment 0 "c"]).2).length :=
  new_comment_ids_sequential [Op.issue "a", Op.comment 0 "b", Op.comment 0 "c"]
    0 _ _ rfl

end Praia
